import Mathlib

/-!
Verification of the arg_input library (src/src/lib.rs): a shallow embedding
of its data model and operations, plus theorems checking the specification
claims against it.

Modelling choices:
* OS paths are raw byte lists (`List Nat`, each < 256); `Path::to_string_lossy`
  is embedded as `utf8Lossy`, a UTF-8 decoder replacing each maximal invalid
  subpart with U+FFFD, as in Rust.
* The filesystem is a parameter `fs : List Nat → Except Nat (List Nat)`
  mapping a raw path to its byte contents or an I/O error code
  (`File::open` + reading); standard input is a parameter `st : List Nat`.
* A `Box<Read>` value is the inductive `Reader`: `stdin`/`file` sources carry
  their remaining bytes, `emptyR` is `io::empty()`, and `chain` mirrors
  `std::io::Chain` with its `done_first` flag.  `Reader.read` is the `read`
  call (buffer size `n`), `readAll` is `read_to_string`-style draining.
* `io::Lines` / `BufReader` are standard-library collaborators outside the
  repository; `splitLines`/`lineOf` model them from the spec: chunks up to and
  including each newline, strict UTF-8 decode per chunk, trailing newline
  (and a carriage return before it) stripped, decode failures per line.
-/

namespace ArgInput

/-- Boolean test for the `Ok` constructor of a `Result`/`Except`. -/
def isOkB {ε τ : Type} : Except ε τ → Bool
  | .ok _ => true
  | .error _ => false

/-- Boolean test for the `Err` constructor of a `Result`/`Except`. -/
def isErrB {ε τ : Type} : Except ε τ → Bool
  | .ok _ => false
  | .error _ => true

/-- The success payload of a `Result`, if any. -/
def exOk {ε τ : Type} : Except ε τ → Option τ
  | .ok t => some t
  | .error _ => none

/-- The error payload of a `Result`, if any. -/
def exErr {ε τ : Type} : Except ε τ → Option ε
  | .ok _ => none
  | .error e => some e

instance {ε τ : Type} [DecidableEq ε] [DecidableEq τ] : DecidableEq (Except ε τ) :=
  fun x y =>
    match x, y with
    | .ok a, .ok b =>
      if h : a = b then .isTrue (by rw [h]) else .isFalse (fun hc => h (by injection hc))
    | .error a, .error b =>
      if h : a = b then .isTrue (by rw [h]) else .isFalse (fun hc => h (by injection hc))
    | .ok _, .error _ => .isFalse (fun hc => Except.noConfusion hc)
    | .error _, .ok _ => .isFalse (fun hc => Except.noConfusion hc)

/-- The loop body of `attempt_map` (lib.rs lines 102-124): iterate over the
elements, threading the `any_failure` flag and the two accumulator vectors.
The first component of the value is the trace of arguments the mapper was
invoked on, in invocation order (one entry per `mapper(obj)` call site). -/
def attemptMapGo {α ε τ : Type} (f : α → Except ε τ) :
    List α → Bool → List τ → List ε → List α × Bool × List τ × List ε
  | [], anyF, succ, fail => ([], anyF, succ, fail)
  | x :: xs, anyF, succ, fail =>
    match f x with
    | .ok t =>
      let r := attemptMapGo f xs anyF (if anyF then succ else succ ++ [t]) fail
      (x :: r.1, r.2)
    | .error e =>
      let r := attemptMapGo f xs true succ (fail ++ [e])
      (x :: r.1, r.2)

/-- `TryIterator::attempt_map` (lib.rs lines 102-124): run the loop from the
initial state and return `Err(failures)` if any element failed, else
`Ok(successes)`. -/
def attempt_map {α ε τ : Type} (f : α → Except ε τ) (xs : List α) :
    Except (List ε) (List τ) :=
  let r := attemptMapGo f xs false [] []
  if r.2.1 then .error r.2.2.2 else .ok r.2.2.1

/-- The arguments `attempt_map` invokes its mapper on, in order. -/
def attemptMapTrace {α ε τ : Type} (f : α → Except ε τ) (xs : List α) :
    List α :=
  (attemptMapGo f xs false [] []).1

/-- Is `b` a UTF-8 continuation byte (0x80..=0xBF)? -/
def contB (b : Nat) : Bool := 128 ≤ b && b ≤ 191

/-- Decode the first UTF-8 scalar of a byte list, as in Rust UTF-8 validati on:
`(some c, k)` consumes the `k` bytes of a well-formed sequence, `(none, k)`
consumes the `k` bytes of a maximal invalid subpart (to be replaced by one
U+FFFD in lossy decoding). Always consumes at least one byte of a non-empty
input. -/
def decodeOne : List Nat → Option Char × Nat
  | [] => (none, 1)
  | b :: rest =>
    if b ≤ 127 then (some (Char.ofNat b), 1)
    else if b ≤ 193 then (none, 1)
    else if b ≤ 223 then
      match rest with
      | b1 :: _ =>
        if contB b1 then (some (Char.ofNat ((b - 192) * 64 + (b1 - 128))), 2)
        else (none, 1)
      | [] => (none, 1)
    else if b ≤ 239 then
      match rest with
      | b1 :: rest1 =>
        let ok1 : Bool :=
          if b = 224 then 160 ≤ b1 && b1 ≤ 191
          else if b = 237 then 128 ≤ b1 && b1 ≤ 159
          else contB b1
        if ok1 then
          match rest1 with
          | b2 :: _ =>
            if contB b2 then
              (some (Char.ofNat ((b - 224) * 4096 + (b1 - 128) * 64 + (b2 - 128))), 3)
            else (none, 2)
          | [] => (none, 2)
        else (none, 1)
      | [] => (none, 1)
    else if b ≤ 244 then
      match rest with
      | b1 :: rest1 =>
        let ok1 : Bool :=
          if b = 240 then 144 ≤ b1 && b1 ≤ 191
          else if b = 244 then 128 ≤ b1 && b1 ≤ 143
          else contB b1
        if ok1 then
          match rest1 with
          | b2 :: rest2 =>
            if contB b2 then
              match rest2 with
              | b3 :: _ =>
                if contB b3 then
                  (some (Char.ofNat
                    ((b - 240) * 262144 + (b1 - 128) * 4096 + (b2 - 128) * 64 + (b3 - 128))), 4)
                else (none, 3)
              | [] => (none, 3)
            else (none, 2)
          | [] => (none, 2)
        else (none, 1)
      | [] => (none, 1)
    else (none, 1)

/-- Fuel-driven lossy UTF-8 decoding loop; each step consumes at least one
byte, so fuel equal to the length of the input suffices. -/
def utf8LossyGo : Nat → List Nat → List Char
  | 0, _ => []
  | _ + 1, [] => []
  | fuel + 1, b :: bs =>
    let r := decodeOne (b :: bs)
    let c := match r.1 with
      | some c => c
      | none => Char.ofNat 65533
    c :: utf8LossyGo fuel (List.drop (r.2 - 1) bs)

/-- `Path::to_string_lossy` (lib.rs lines 202, 209): UTF-8 decoding of the raw
path bytes with each maximal invalid subpart replaced by U+FFFD. -/
def utf8Lossy (bs : List Nat) : List Char := utf8LossyGo bs.length bs

/-- Fuel-driven strict UTF-8 decoding loop (`str::from_utf8` as used by
`BufRead::read_line`): `none` on the first invalid sequence. -/
def utf8DecodeGo : Nat → List Nat → Option (List Char)
  | _, [] => some []
  | 0, _ :: _ => none
  | fuel + 1, b :: bs =>
    match decodeOne (b :: bs) with
    | (some c, k) =>
      match utf8DecodeGo fuel (List.drop (k - 1) bs) with
      | some cs => some (c :: cs)
      | none => none
    | (none, _) => none

/-- Strict UTF-8 decoding of a whole byte list. -/
def utf8Decode? (bs : List Nat) : Option (List Char) := utf8DecodeGo bs.length bs

/-- `FailReadFileError` (lib.rs lines 23-27): the underlying I/O error
(modelled as its error code) and the lossy string form of the path. -/
structure FailReadFileError where
  inner : Nat
  filename : List Char
  deriving DecidableEq, Repr

/-- `InputError` (lib.rs lines 47-50): the ordered aggregate of per-file
open failures. -/
structure InputError where
  badfiles : List FailReadFileError
  deriving DecidableEq, Repr

/-- A `Box<Read>` handle: a standard-input handle or an open file (each with
its remaining bytes), `io::empty()`, or `std::io::Chain` with its
`done_first` flag. Standard-input handles are modelled as snapshots of the
stdin byte stream. -/
inductive Reader where
  | stdin (remaining : List Nat)
  | file (remaining : List Nat)
  | emptyR
  | chain (doneFirst : Bool) (first second : Reader)
  deriving DecidableEq, Repr

/-- One `Read::read` call with a buffer of size `n`: returns the bytes read
and the updated handle. `Chain::read` reads the first stream until it
returns 0 bytes into a non-empty buffer, then switches to the second within
the same call. -/
def Reader.read : Reader → Nat → List Nat × Reader
  | .stdin d, n => (d.take n, .stdin (d.drop n))
  | .file d, n => (d.take n, .file (d.drop n))
  | .emptyR, _ => ([], .emptyR)
  | .chain df r1 r2, n =>
    if df then
      let r := r2.read n
      (r.1, .chain true r1 r.2)
    else
      let r := r1.read n
      if r.1.isEmpty && n != 0 then
        let s := r2.read n
        (s.1, .chain true r.2 s.2)
      else
        (r.1, .chain false r.2 r2)

/-- The bytes a handle will still deliver: sources deliver their remaining
bytes; a chain delivers its first stream (unless already done) then its
second. -/
def Reader.contents : Reader → List Nat
  | .stdin d => d
  | .file d => d
  | .emptyR => []
  | .chain df r1 r2 => (if df then [] else r1.contents) ++ r2.contents

/-- Fuel-driven `read_to_end`-style loop: call `read` with buffer size `n`
until it returns no bytes; return all bytes read and the final handle. -/
def readAllGo (n : Nat) : Nat → Reader → List Nat × Reader
  | 0, r => ([], r)
  | fuel + 1, r =>
    let s := r.read n
    if s.1.isEmpty then ([], s.2)
    else
      let t := readAllGo n fuel s.2
      (s.1 ++ t.1, t.2)

/-- Read a handle to exhaustion with buffer size `n` (as `read_to_string`
does); sufficient fuel is the number of remaining bytes plus one. -/
def readAll (n : Nat) (r : Reader) : List Nat × Reader :=
  readAllGo n (r.contents.length + 1) r

/-- The outputs of `k` further `read` calls with buffer size `m`. -/
def readSeq (m : Nat) : Nat → Reader → List (List Nat)
  | 0, _ => []
  | k + 1, r =>
    let s := r.read m
    s.1 :: readSeq m k s.2

/-- `chain_all_reads` (lib.rs lines 193-199): fold the resolved handles onto
`io::empty()` with `Read::chain`. -/
def chain_all_reads (reads : List Reader) : Reader :=
  reads.foldl (fun acc next => Reader.chain false acc next) Reader.emptyR

/-- `from_arg` (lib.rs lines 201-214): if the lossy string form of the path
is exactly `-`, a standard-input handle; otherwise open the file, recording
on failure the error and the lossy string form of the path. -/
def from_arg (fs : List Nat → Except Nat (List Nat)) (st : List Nat)
    (arg : List Nat) : Except FailReadFileError Reader :=
  if utf8Lossy arg = ['-'] then .ok (.stdin st)
  else
    match fs arg with
    | .ok d => .ok (.file d)
    | .error code => .error ⟨code, utf8Lossy arg⟩

/-- `input` (lib.rs lines 177-191): empty argument sequence yields standard
input directly; otherwise `attempt_map` the per-argument resolver and chain
all resulting handles. -/
def input (fs : List Nat → Except Nat (List Nat)) (st : List Nat)
    (paths : List (List Nat)) : Except InputError Reader :=
  if paths.length = 0 then .ok (.stdin st)
  else
    match attempt_map (from_arg fs st) paths with
    | .error errs => .error ⟨errs⟩
    | .ok reads => .ok (chain_all_reads reads)

/-- Modelled from the spec: the newline-delimited chunking performed by
`BufRead::read_until` inside `io::Lines`, which is standard-library code not
in this repository. Each chunk includes its terminating newline byte; a
final unterminated chunk is kept; empty input yields no chunks. -/
def splitLinesAcc (acc : List Nat) : List Nat → List (List Nat)
  | [] => if acc.isEmpty then [] else [acc]
  | b :: bs =>
    if b = 10 then (acc ++ [10]) :: splitLinesAcc [] bs
    else splitLinesAcc (acc ++ [b]) bs

/-- Chunk a byte stream into newline-terminated lines. -/
def splitLines (bs : List Nat) : List (List Nat) := splitLinesAcc [] bs

/-- Modelled from the spec: the line-terminator stripping of `io::Lines`:
drop a trailing newline and, only then, a carriage return before it. -/
def stripNewline (s : List Char) : List Char :=
  match s.getLast? with
  | some c =>
    if c = '\n' then
      let s1 := s.dropLast
      match s1.getLast? with
      | some c1 => if c1 = '\r' then s1.dropLast else s1
      | none => s1
    else s
  | none => s

/-- Modelled from the spec: one element of the line sequence, from one raw
chunk: strict-decode the chunk (as `read_line` does) and strip the
terminator, or a per-line failure when decoding fails. -/
def lineOf (chunk : List Nat) : Except Unit (List Char) :=
  match utf8Decode? chunk with
  | some s => .ok (stripNewline s)
  | none => .error ()

/-- Modelled from the spec: the full line sequence `io::Lines` produces from
a byte stream. -/
def lines (bs : List Nat) : List (Except Unit (List Char)) :=
  (splitLines bs).map lineOf

/-- `input_lines` (lib.rs lines 156-165): resolve and chain the inputs, then
split the chained stream into lines. -/
def input_lines (fs : List Nat → Except Nat (List Nat)) (st : List Nat)
    (paths : List (List Nat)) : Except InputError (List (Except Unit (List Char))) :=
  match input fs st paths with
  | .error e => .error e
  | .ok r => .ok (lines r.contents)

/-- The byte contents `fs` gives for a path (empty on open failure); used to
state concatenation results. -/
def fileBytes (fs : List Nat → Except Nat (List Nat)) (p : List Nat) : List Nat :=
  match fs p with
  | .ok d => d
  | .error _ => []

/-- Does this path open as a regular file (not the `-` sentinel, and the
filesystem yields contents)? -/
def opensAsFile (fs : List Nat → Except Nat (List Nat)) (p : List Nat) : Bool :=
  decide (utf8Lossy p ≠ ['-']) && isOkB (fs p)

/-- The open failures of a path sequence, in argument order: the expected
value of the aggregate error, written from the words of the spec. -/
def failuresOf (fs : List Nat → Except Nat (List Nat)) (st : List Nat)
    (paths : List (List Nat)) : List FailReadFileError :=
  paths.filterMap (fun p => exErr (from_arg fs st p))

/-! ### Lemmas about `attempt_map` -/

lemma isErrB_eq_false_iff {ε τ : Type} (e : Except ε τ) :
    isErrB e = false ↔ isOkB e = true := by
  cases e <;> simp [isErrB, isOkB]

lemma takeWhile_eq_self_of {α : Type} (p : α → Bool) :
    ∀ xs : List α, (∀ x ∈ xs, p x = true) → xs.takeWhile p = xs := by
  intro xs
  induction xs with
  | nil => intro _; rfl
  | cons x xs ih =>
    intro h
    have hx : p x = true := h x (List.mem_cons_self x xs)
    simp [List.takeWhile_cons, hx, ih fun y hy => h y (List.mem_cons_of_mem x hy)]

lemma attemptMapGo_eq {α ε τ : Type} (f : α → Except ε τ) :
    ∀ (xs : List α) (anyF : Bool) (succ : List τ) (fail : List ε),
    attemptMapGo f xs anyF succ fail =
      (xs, anyF || xs.any (fun x => isErrB (f x)),
        (if anyF then succ
         else succ ++ (xs.takeWhile (fun x => isOkB (f x))).filterMap (fun x => exOk (f x))),
        fail ++ xs.filterMap (fun x => exErr (f x))) := by
  intro xs
  induction xs with
  | nil => intro anyF succ fail; cases anyF <;> simp [attemptMapGo]
  | cons x xs ih =>
    intro anyF succ fail
    cases hfx : f x with
    | ok t =>
      simp only [attemptMapGo, hfx, ih, List.any_cons, List.takeWhile_cons,
        List.filterMap_cons, isErrB, isOkB, exOk, exErr]
      cases anyF <;> simp [List.filterMap_cons, hfx]
    | error e =>
      simp only [attemptMapGo, hfx, ih, List.any_cons, List.takeWhile_cons,
        List.filterMap_cons, isErrB, isOkB, exOk, exErr]
      cases anyF <;> simp

lemma attemptMapTrace_eq {α ε τ : Type} (f : α → Except ε τ) (xs : List α) :
    attemptMapTrace f xs = xs := by
  simp [attemptMapTrace, attemptMapGo_eq]

lemma attempt_map_ok_eq {α ε τ : Type} (f : α → Except ε τ) (xs : List α)
    (h : ∀ x ∈ xs, isOkB (f x) = true) :
    attempt_map f xs = .ok (xs.filterMap (fun x => exOk (f x))) := by
  have hany : xs.any (fun x => isErrB (f x)) = false := by
    simp only [List.any_eq_false]
    intro x hx
    simp [(isErrB_eq_false_iff (f x)).mpr (h x hx)]
  simp [attempt_map, attemptMapGo_eq, hany,
    takeWhile_eq_self_of (fun x => isOkB (f x)) xs h]

lemma attempt_map_err_eq {α ε τ : Type} (f : α → Except ε τ) (xs : List α)
    (h : ∃ x ∈ xs, isErrB (f x) = true) :
    attempt_map f xs = .error (xs.filterMap (fun x => exErr (f x))) := by
  have hany : xs.any (fun x => isErrB (f x)) = true := List.any_eq_true.mpr h
  simp [attempt_map, attemptMapGo_eq, hany]

/-! ### Lemmas about `Reader` -/

lemma Reader.read_spec (n : Nat) (r : Reader) :
    (r.read n).1 ++ (r.read n).2.contents = r.contents ∧
    (1 ≤ n → (r.read n).1 = [] → r.contents = []) := by
  induction r with
  | stdin d =>
    constructor
    · simp [Reader.read, Reader.contents]
    · intro hn h
      simp only [Reader.read] at h
      rcases List.take_eq_nil_iff.mp h with h0 | hd
      · omega
      · simpa [Reader.contents] using hd
  | file d =>
    constructor
    · simp [Reader.read, Reader.contents]
    · intro hn h
      simp only [Reader.read] at h
      rcases List.take_eq_nil_iff.mp h with h0 | hd
      · omega
      · simpa [Reader.contents] using hd
  | emptyR => simp [Reader.read, Reader.contents]
  | chain df r1 r2 ih1 ih2 =>
    cases df with
    | true =>
      constructor
      · simpa [Reader.read, Reader.contents] using ih2.1
      · intro hn h
        simp only [Reader.read, if_pos rfl] at h
        simp [Reader.contents, ih2.2 hn h]
    | false =>
      by_cases hg : ((r1.read n).1.isEmpty && n != 0) = true
      · have hnil : (r1.read n).1 = [] := by
          have := (Bool.and_eq_true _ _).mp hg
          exact List.isEmpty_iff.mp this.1
        have hn1 : 1 ≤ n := by
          have := (Bool.and_eq_true _ _).mp hg
          have : n ≠ 0 := by simpa using this.2
          omega
        have hr1 : r1.contents = [] := ih1.2 hn1 hnil
        constructor
        · simp only [Reader.read, Bool.false_eq_true, if_false, hg, if_true,
            Reader.contents, hr1]
          simpa using ih2.1
        · intro hn h
          simp only [Reader.read, Bool.false_eq_true, if_false, hg, if_true] at h
          simp [Reader.contents, hr1, ih2.2 hn h]
      · constructor
        · simp only [Reader.read, Bool.false_eq_true, if_false, hg, Reader.contents]
          rw [← List.append_assoc, ih1.1]
        · intro hn h
          simp only [Reader.read, Bool.false_eq_true, if_false, hg] at h
          exfalso
          apply hg
          simp [h]
          omega

lemma Reader.read_of_exhausted (n : Nat) (r : Reader) (h : r.contents = []) :
    (r.read n).1 = [] ∧ (r.read n).2.contents = [] := by
  have h1 := (Reader.read_spec n r).1
  rw [h] at h1
  exact List.append_eq_nil.mp h1

lemma readAllGo_spec (n : Nat) (hn : 1 ≤ n) :
    ∀ (fuel : Nat) (r : Reader), r.contents.length < fuel →
      (readAllGo n fuel r).1 = r.contents ∧ (readAllGo n fuel r).2.contents = [] := by
  intro fuel
  induction fuel with
  | zero => intro r h; omega
  | succ fuel ih =>
    intro r h
    have hs := Reader.read_spec n r
    by_cases he : (r.read n).1.isEmpty
    · have hnil : (r.read n).1 = [] := List.isEmpty_iff.mp he
      have hre : r.contents = [] := hs.2 hn hnil
      have h2 : (r.read n).2.contents = [] := by
        have := hs.1
        rw [hnil, hre] at this
        simpa using this
      simp [readAllGo, he, hre, h2]
    · have hnnil : (r.read n).1 ≠ [] := fun hc => he (by simp [hc])
      have hlen : (r.read n).2.contents.length < fuel := by
        have h1 := hs.1
        have : (r.read n).1.length + (r.read n).2.contents.length = r.contents.length := by
          rw [← h1]; simp
        have hpos : 1 ≤ (r.read n).1.length := by
          cases hc : (r.read n).1 with
          | nil => exact absurd hc hnnil
          | cons a l => simp
        omega
      have hr := ih (r.read n).2 hlen
      constructor
      · simp only [readAllGo, he, Bool.false_eq_true, if_false]
        rw [hr.1, hs.1]
      · simp only [readAllGo, he, Bool.false_eq_true, if_false]
        exact hr.2

lemma readAll_spec (n : Nat) (r : Reader) (hn : 1 ≤ n) :
    (readAll n r).1 = r.contents ∧ (readAll n r).2.contents = [] :=
  readAllGo_spec n hn (r.contents.length + 1) r (Nat.lt_succ_self _)

lemma readSeq_of_exhausted (m : Nat) :
    ∀ (k : Nat) (r : Reader), r.contents = [] → readSeq m k r = List.replicate k [] := by
  intro k
  induction k with
  | zero => intro r _; rfl
  | succ k ih =>
    intro r h
    have hr := Reader.read_of_exhausted m r h
    simp [readSeq, hr.1, ih (r.read m).2 hr.2, List.replicate_succ]

lemma foldl_chain_contents :
    ∀ (l : List Reader) (acc : Reader),
      (l.foldl (fun a x => Reader.chain false a x) acc).contents
        = acc.contents ++ (l.map Reader.contents).flatten := by
  intro l
  induction l with
  | nil => intro acc; simp
  | cons x xs ih =>
    intro acc
    simp only [List.foldl_cons, ih, List.map_cons, List.flatten_cons]
    simp [Reader.contents]

lemma chain_all_reads_contents (l : List Reader) :
    (chain_all_reads l).contents = (l.map Reader.contents).flatten := by
  simp [chain_all_reads, foldl_chain_contents, Reader.contents]

/-! ### Lemmas about `from_arg` and `input` -/

lemma from_arg_of_opensAsFile (fs : List Nat → Except Nat (List Nat))
    (st : List Nat) (p : List Nat) (h : opensAsFile fs p = true) :
    from_arg fs st p = .ok (.file (fileBytes fs p)) := by
  have hb := (Bool.and_eq_true _ _).mp h
  have hdash : ¬(utf8Lossy p = ['-']) := by
    intro hc
    have := hb.1
    simp [hc] at this
  cases hfs : fs p with
  | ok d => simp [from_arg, hdash, hfs, fileBytes]
  | error c =>
    exfalso
    have := hb.2
    rw [hfs] at this
    simp [isOkB] at this

lemma filterMap_exOk_of_opens (fs : List Nat → Except Nat (List Nat)) (st : List Nat) :
    ∀ paths : List (List Nat), (∀ p ∈ paths, opensAsFile fs p = true) →
      paths.filterMap (fun p => exOk (from_arg fs st p))
        = paths.map (fun p => Reader.file (fileBytes fs p)) := by
  intro paths
  induction paths with
  | nil => intro _; rfl
  | cons p ps ih =>
    intro h
    have hp := from_arg_of_opensAsFile fs st p (h p (List.mem_cons_self p ps))
    simp only [List.filterMap_cons, hp, exOk, List.map_cons]
    exact congrArg _ (ih fun q hq => h q (List.mem_cons_of_mem p hq))

lemma filterMap_exErr_ne_nil {α ε τ : Type} (f : α → Except ε τ) :
    ∀ xs : List α, (∃ x ∈ xs, isErrB (f x) = true) →
      xs.filterMap (fun x => exErr (f x)) ≠ [] := by
  intro xs
  induction xs with
  | nil => rintro ⟨x, hx, _⟩; exact absurd hx (List.not_mem_nil x)
  | cons x xs ih =>
    rintro ⟨y, hy, hye⟩ hc
    rw [List.filterMap_cons] at hc
    cases hfx : f x with
    | error e => rw [hfx] at hc; simp [exErr] at hc
    | ok t =>
      rw [hfx] at hc
      simp only [exErr] at hc
      rcases List.mem_cons.mp hy with rfl | hmem
      · rw [hfx] at hye; simp [isErrB] at hye
      · exact ih ⟨y, hmem, hye⟩ hc

lemma lines_append (chunk rest : List Nat) (h : 10 ∉ chunk) :
    lines (chunk ++ 10 :: rest) = lineOf (chunk ++ [10]) :: lines rest := by
  have key : ∀ (c : List Nat) (acc : List Nat), 10 ∉ c →
      splitLinesAcc acc (c ++ 10 :: rest) = (acc ++ (c ++ [10])) :: splitLinesAcc [] rest := by
    intro c
    induction c with
    | nil => intro acc _; simp [splitLinesAcc]
    | cons b bs ih =>
      intro acc hb
      have hb10 : ¬(b = 10) := fun hc => hb (by simp [hc])
      have hbs : 10 ∉ bs := fun hc => hb (List.mem_cons_of_mem b hc)
      have step : splitLinesAcc acc ((b :: bs) ++ 10 :: rest)
          = splitLinesAcc (acc ++ [b]) (bs ++ 10 :: rest) := by
        simp [splitLinesAcc, hb10]
      rw [step, ih (acc ++ [b]) hbs]
      simp
  simp only [lines, splitLines, key chunk [] h, List.nil_append, List.map_cons]

lemma attempt_map_eq {α ε τ : Type} (f : α → Except ε τ) (xs : List α) :
    attempt_map f xs =
      if xs.any (fun x => isErrB (f x))
      then .error (xs.filterMap (fun x => exErr (f x)))
      else .ok (xs.filterMap (fun x => exOk (f x))) := by
  by_cases hany : xs.any (fun x => isErrB (f x)) = true
  · rw [if_pos hany]
    exact attempt_map_err_eq f xs (List.any_eq_true.mp hany)
  · have hall : ∀ x ∈ xs, isOkB (f x) = true := by
      intro x hx
      have hfalse := List.any_eq_false.mp (Bool.eq_false_iff.mpr hany) x hx
      exact (isErrB_eq_false_iff (f x)).mp (Bool.eq_false_iff.mpr hfalse)
    rw [if_neg (by simpa using hany)]
    exact attempt_map_ok_eq f xs hall

lemma exErr_eq_some {ε τ : Type} {x : Except ε τ} {e : ε}
    (h : exErr x = some e) : x = .error e := by
  cases x with
  | ok t => simp [exErr] at h
  | error e1 =>
    simp only [exErr, Option.some.injEq] at h
    rw [h]

lemma from_arg_error_filename (fs : List Nat → Except Nat (List Nat))
    (st p : List Nat) (e : FailReadFileError)
    (h : from_arg fs st p = .error e) : e.filename = utf8Lossy p := by
  by_cases hd : utf8Lossy p = ['-']
  · simp [from_arg, hd] at h
  · cases hfs : fs p with
    | ok d => simp [from_arg, hd, hfs] at h
    | error c =>
      simp only [from_arg, hd, if_false, hfs, Except.error.injEq] at h
      rw [← h]

lemma exErr_ok {ε τ : Type} (t : τ) : exErr (.ok t : Except ε τ) = none := rfl

lemma exErr_error {ε τ : Type} (e : ε) : exErr (.error e : Except ε τ) = some e := rfl

lemma isErrB_ok {ε τ : Type} (t : τ) : isErrB (.ok t : Except ε τ) = false := rfl

lemma isErrB_error {ε τ : Type} (e : ε) : isErrB (.error e : Except ε τ) = true := rfl

lemma length_filterMap_exErr {α ε τ : Type} (f : α → Except ε τ) :
    ∀ xs : List α,
      (xs.filterMap (fun x => exErr (f x))).length
        = (xs.filter (fun x => isErrB (f x))).length := by
  intro xs
  induction xs with
  | nil => rfl
  | cons x xs ih =>
    cases hfx : f x with
    | ok t =>
      simp only [List.filterMap_cons, List.filter_cons, hfx, exErr_ok, isErrB_ok]
      simpa using ih
    | error e =>
      simp only [List.filterMap_cons, List.filter_cons, hfx, exErr_error, isErrB_error]
      simpa using ih

/-! ### Claim theorems -/

/-- Claim C1: `attempt_map` invokes the transform on every element exactly
once, in sequence order (its invocation trace is the input sequence itself),
never skipping an element because an earlier one failed; when every
application succeeds it returns the ordered sequence of all successes, and
when one or more fail it returns the ordered sequence of all failures in
original order, discarding all successes. -/
theorem attempt_map_spec {α ε τ : Type} (f : α → Except ε τ) (xs : List α) :
    attemptMapTrace f xs = xs ∧
    ((∀ x ∈ xs, isOkB (f x) = true) →
      attempt_map f xs = .ok (xs.filterMap (fun x => exOk (f x)))) ∧
    ((∃ x ∈ xs, isErrB (f x) = true) →
      attempt_map f xs = .error (xs.filterMap (fun x => exErr (f x)))) :=
  ⟨attemptMapTrace_eq f xs, attempt_map_ok_eq f xs, attempt_map_err_eq f xs⟩

/-- Witness for C1 at a concrete transform and sequence with two failures. -/
theorem attempt_map_spec_witness :
    attempt_map (fun n => if n % 2 = 0 then Except.ok n else Except.error (n + 10))
        [1, 2, 3] = .error [11, 13] := by
  rw [(attempt_map_spec
    (fun n => if n % 2 = 0 then Except.ok n else Except.error (n + 10))
    [1, 2, 3]).2.2 (by decide)]
  decide

/-- Counterexample to Claim C2 as stated: for the empty path sequence (all of
whose zero paths vacuously open successfully) with non-empty standard input,
`input` succeeds but the returned stream reads to the standard-input bytes,
not to the (empty) concatenation of the files' contents. -/
theorem input_files_concat_cex :
    (∀ p ∈ ([] : List (List Nat)), opensAsFile (fun _ => Except.error 2) p = true) ∧
    input (fun _ => Except.error 2) [7] [] = .ok (Reader.stdin [7]) ∧
    (readAll 1 (Reader.stdin [7])).1
      ≠ (([] : List (List Nat)).map (fileBytes (fun _ => Except.error 2))).flatten :=
  ⟨by decide, by decide, by decide⟩

/-- Claim C2 (amended: the path sequence must be non-empty, since for the
empty sequence `input` returns the standard-input handle instead): for every
non-empty sequence of paths that all open successfully as files, `input`
succeeds and reading the returned chained stream to exhaustion yields
exactly the ordered concatenation of each file's full contents. -/
theorem input_files_concat (fs : List Nat → Except Nat (List Nat))
    (st : List Nat) (paths : List (List Nat)) (n : Nat)
    (hn : 1 ≤ n) (hne : paths ≠ [])
    (hok : ∀ p ∈ paths, opensAsFile fs p = true) :
    ∃ r, input fs st paths = .ok r ∧
      (readAll n r).1 = (paths.map (fileBytes fs)).flatten := by
  have hlen : ¬(paths.length = 0) := by simpa using hne
  have hfa : ∀ p ∈ paths, isOkB (from_arg fs st p) = true := by
    intro p hp
    rw [from_arg_of_opensAsFile fs st p (hok p hp)]
    rfl
  have hmap := attempt_map_ok_eq (from_arg fs st) paths hfa
  refine ⟨chain_all_reads (paths.filterMap (fun p => exOk (from_arg fs st p))), ?_, ?_⟩
  · simp [input, hlen, hmap]
  · rw [(readAll_spec n _ hn).1, chain_all_reads_contents,
      filterMap_exOk_of_opens fs st paths hok]
    simp [List.map_map, Function.comp_def, Reader.contents]

/-- Witness for the amended C2 at two concrete one-byte files. -/
theorem input_files_concat_witness :
    ∃ r, input
        (fun p => if p = [65] then Except.ok [1, 2]
          else if p = [66] then Except.ok [3] else Except.error 2)
        [9] [[65], [66]] = .ok r ∧
      (readAll 1 r).1 = ([[65], [66]].map (fileBytes
        (fun p => if p = [65] then Except.ok [1, 2]
          else if p = [66] then Except.ok [3] else Except.error 2))).flatten :=
  input_files_concat _ [9] [[65], [66]] 1 (by decide) (by decide) (by decide)

/-- Claim C3: when at least one path fails to resolve, `input` fails with the
aggregate of exactly the failing paths' errors, in original argument order
(one failure per failing path, so their count equals the number of failing
paths), each failure recording the lossy string form of its own path. -/
theorem input_error_aggregates (fs : List Nat → Except Nat (List Nat))
    (st : List Nat) (paths : List (List Nat))
    (h : ∃ p ∈ paths, isErrB (from_arg fs st p) = true) :
    input fs st paths = .error ⟨failuresOf fs st paths⟩ ∧
    (failuresOf fs st paths).length
      = (paths.filter (fun p => isErrB (from_arg fs st p))).length ∧
    ∀ e ∈ failuresOf fs st paths, ∃ p ∈ paths,
      from_arg fs st p = .error e ∧ e.filename = utf8Lossy p := by
  have hcopy := h
  obtain ⟨p0, hp0, _⟩ := hcopy
  have hlen : ¬(paths.length = 0) := by
    intro hc
    rw [List.length_eq_zero.mp hc] at hp0
    exact absurd hp0 (List.not_mem_nil p0)
  refine ⟨?_, length_filterMap_exErr (from_arg fs st) paths, ?_⟩
  · simp [input, hlen, attempt_map_err_eq (from_arg fs st) paths h, failuresOf]
  · intro e he
    obtain ⟨p, hp, hpe⟩ := List.mem_filterMap.mp he
    exact ⟨p, hp, exErr_eq_some hpe,
      from_arg_error_filename fs st p e (exErr_eq_some hpe)⟩

/-- Witness for C3: a failing path, a succeeding path, then a failing path. -/
theorem input_error_aggregates_witness :
    input (fun p => if p = [65] then Except.ok [1] else Except.error 2)
        [9] [[90], [65], [88]]
      = .error ⟨failuresOf
          (fun p => if p = [65] then Except.ok [1] else Except.error 2)
          [9] [[90], [65], [88]]⟩ ∧
    (failuresOf (fun p => if p = [65] then Except.ok [1] else Except.error 2)
        [9] [[90], [65], [88]]).length
      = ([[90], [65], [88]].filter (fun p => isErrB (from_arg
          (fun q => if q = [65] then Except.ok [1] else Except.error 2) [9] p))).length ∧
    ∀ e ∈ failuresOf (fun p => if p = [65] then Except.ok [1] else Except.error 2)
        [9] [[90], [65], [88]], ∃ p ∈ [[90], [65], [88]],
      from_arg (fun q => if q = [65] then Except.ok [1] else Except.error 2) [9] p
          = .error e ∧ e.filename = utf8Lossy p :=
  input_error_aggregates _ [9] [[90], [65], [88]] (by decide)

/-- Claim C4: for the empty argument sequence, `input` succeeds with exactly
a standard-input handle, for every filesystem (so no filesystem open is
attempted) and every standard-input stream. -/
theorem input_empty_stdin (fs : List Nat → Except Nat (List Nat)) (st : List Nat) :
    input fs st [] = .ok (.stdin st) := rfl

/-- Claim C5: an argument whose lossy string form is exactly `-` resolves to
a standard-input handle, for every filesystem (so no attempt is made to open
a file named `-`); `input` applies this resolver to every element of a
non-empty argument sequence. -/
theorem from_arg_dash_stdin (fs : List Nat → Except Nat (List Nat))
    (st p : List Nat) (h : utf8Lossy p = ['-']) :
    from_arg fs st p = .ok (.stdin st) := by
  simp [from_arg, h]

/-- Witness for C5 at the one-byte path `-` (0x2D). -/
theorem from_arg_dash_stdin_witness :
    from_arg (fun _ => Except.error 2) [3] [45] = .ok (.stdin [3]) :=
  from_arg_dash_stdin _ [3] [45] (by decide)

/-- Claim C6: resolution is atomic: `input` either succeeds with a single
stream and no per-path failure occurred at all, or fails with exactly the
ordered aggregate of every per-path failure, which is non-empty; no handle
accompanies an error. -/
theorem input_atomic (fs : List Nat → Except Nat (List Nat))
    (st : List Nat) (paths : List (List Nat)) :
    (∃ r, input fs st paths = .ok r ∧ ∀ p ∈ paths, exErr (from_arg fs st p) = none) ∨
    (∃ e, input fs st paths = .error e ∧ e.badfiles = failuresOf fs st paths ∧
      e.badfiles ≠ []) := by
  by_cases hall : ∀ p ∈ paths, isOkB (from_arg fs st p) = true
  · left
    have hnone : ∀ p ∈ paths, exErr (from_arg fs st p) = none := by
      intro p hp
      cases hf : from_arg fs st p with
      | ok h => rfl
      | error e =>
        have := hall p hp
        rw [hf] at this
        simp [isOkB] at this
    by_cases hlen : paths.length = 0
    · exact ⟨.stdin st, by simp [input, hlen], hnone⟩
    · exact ⟨chain_all_reads (paths.filterMap (fun p => exOk (from_arg fs st p))),
        by simp [input, hlen, attempt_map_ok_eq (from_arg fs st) paths hall], hnone⟩
  · right
    have hex : ∃ p ∈ paths, isErrB (from_arg fs st p) = true := by
      push_neg at hall
      obtain ⟨p, hp, hne⟩ := hall
      refine ⟨p, hp, ?_⟩
      cases hf : from_arg fs st p with
      | ok h =>
        rw [hf] at hne
        exact absurd rfl hne
      | error e => rfl
    have hlen : ¬(paths.length = 0) := by
      intro hc
      obtain ⟨p, hp, _⟩ := hex
      rw [List.length_eq_zero.mp hc] at hp
      exact absurd hp (List.not_mem_nil p)
    exact ⟨⟨failuresOf fs st paths⟩,
      by simp [input, hlen, attempt_map_err_eq (from_arg fs st) paths hex, failuresOf],
      rfl, filterMap_exErr_ne_nil (from_arg fs st) paths hex⟩

/-- Claim C7: each element of the line sequence is one newline-terminated
chunk, as either its decoded text with the terminator stripped or a per-line
decode failure; and the elements after any chunk, failing or not, are
exactly the line sequence of the remaining bytes, so a failure never
terminates the sequence. -/
theorem lines_per_line (chunk rest : List Nat) (h : 10 ∉ chunk) :
    lines (chunk ++ 10 :: rest) = lineOf (chunk ++ [10]) :: lines rest ∧
    (∀ s, utf8Decode? (chunk ++ [10]) = some s →
      lineOf (chunk ++ [10]) = .ok (stripNewline s)) ∧
    (utf8Decode? (chunk ++ [10]) = none → lineOf (chunk ++ [10]) = .error ()) := by
  refine ⟨lines_append chunk rest h, ?_, ?_⟩
  · intro s hs
    simp [lineOf, hs]
  · intro hs
    simp [lineOf, hs]

/-- Witness for C7: an undecodable first line followed by a valid line. -/
theorem lines_per_line_witness :
    lines ([255] ++ 10 :: [65, 10]) = lineOf ([255] ++ [10]) :: lines [65, 10] :=
  (lines_per_line [255] [65, 10] (by decide)).1

/-- Claim C8: whenever `input` returns the aggregate error, its list of
per-file failures is non-empty, and every entry of that list is the error of
one of the argument paths (never a successfully resolved handle). -/
theorem input_error_nonempty (fs : List Nat → Except Nat (List Nat))
    (st : List Nat) (paths : List (List Nat)) (e : InputError)
    (h : input fs st paths = .error e) :
    e.badfiles ≠ [] ∧
    ∀ b ∈ e.badfiles, ∃ p ∈ paths, from_arg fs st p = .error b := by
  by_cases hlen : paths.length = 0
  · simp [input, hlen] at h
  · rw [input, if_neg hlen, attempt_map_eq] at h
    by_cases hany : paths.any (fun p => isErrB (from_arg fs st p)) = true
    · rw [if_pos hany] at h
      simp only [Except.error.injEq] at h
      have hb : e.badfiles = paths.filterMap (fun p => exErr (from_arg fs st p)) := by
        rw [← h]
      constructor
      · rw [hb]
        exact filterMap_exErr_ne_nil (from_arg fs st) paths (List.any_eq_true.mp hany)
      · intro b hbmem
        rw [hb] at hbmem
        obtain ⟨p, hp, hpe⟩ := List.mem_filterMap.mp hbmem
        exact ⟨p, hp, exErr_eq_some hpe⟩
    · rw [if_neg hany] at h
      exact absurd h (by simp)

/-- Witness for C8 at one nonexistent path. -/
theorem input_error_nonempty_witness :
    (InputError.mk [⟨2, ['Z']⟩]).badfiles ≠ [] ∧
    ∀ b ∈ (InputError.mk [⟨2, ['Z']⟩]).badfiles, ∃ p ∈ [[90]],
      from_arg (fun _ => Except.error 2) [0] p = .error b :=
  input_error_nonempty (fun _ => Except.error 2) [0] [[90]] ⟨[⟨2, ['Z']⟩]⟩ (by decide)

/-- Claim C9: for a stream returned by `input`, once a draining read loop has
reached end of stream, every further sequence of reads (any buffer size, any
number of calls) yields only empty results: no further bytes, no error, no
re-reading of any input. -/
theorem chain_exhausted_reads_empty (fs : List Nat → Except Nat (List Nat))
    (st : List Nat) (paths : List (List Nat)) (r : Reader) (n m k : Nat)
    (hn : 1 ≤ n) (_h : input fs st paths = .ok r) :
    readSeq m k (readAll n r).2 = List.replicate k [] :=
  readSeq_of_exhausted m k _ (readAll_spec n r hn).2

/-- Witness for C9: the chain over one one-byte file, drained, then read
three more times. -/
theorem chain_exhausted_reads_empty_witness :
    readSeq 4 3 (readAll 1 (Reader.chain false Reader.emptyR (Reader.file [1]))).2
      = List.replicate 3 [] :=
  chain_exhausted_reads_empty
    (fun p => if p = [65] then Except.ok [1] else Except.error 2)
    [0] [[65]] (Reader.chain false Reader.emptyR (Reader.file [1])) 1 4 3
    (by decide) (by decide)

/-- Claim C10: every open failure records as filename the lossy UTF-8 form of
the path (so for the invalid-UTF-8 path 0xFF, whose lossy form is U+FFFD,
the reported name differs from the raw path bytes), and the `-` sentinel
test is performed on that same lossy string form. -/
theorem from_arg_lossy_filename :
    (∀ (fs : List Nat → Except Nat (List Nat)) (st p : List Nat)
        (e : FailReadFileError),
      from_arg fs st p = .error e → e.filename = utf8Lossy p) ∧
    (utf8Lossy [255]).map Char.toNat ≠ [255] ∧
    (∀ (fs : List Nat → Except Nat (List Nat)) (st p : List Nat),
      utf8Lossy p = ['-'] → from_arg fs st p = .ok (.stdin st)) :=
  ⟨fun fs st p e h => from_arg_error_filename fs st p e h,
   by decide,
   fun fs st p h => by simp [from_arg, h]⟩

/-- Witness for C10 at the single-byte invalid-UTF-8 path 0xFF. -/
theorem from_arg_lossy_filename_witness :
    (FailReadFileError.mk 2 (utf8Lossy [255])).filename = utf8Lossy [255] :=
  from_arg_lossy_filename.1 (fun _ => Except.error 2) [] [255]
    ⟨2, utf8Lossy [255]⟩ (by decide)

end ArgInput
